import Mathlib

/-!
Verification development for the WhatsApp chat-analysis script (src/main.py).

The script is a single pandas pipeline.  We shallowly embed each stage as an
executable Lean function, faithful to the source:

* `classifyLine` — the regex
  `(\[(?P<datetime>\d{2}.\d{2}.\d{2}, \d{2}:\d{2}:\d{2})] (?P<messenger>[^:]*): )?((?P<message>.*))`
  applied with `re.search` to one input line (line 49-50).  The pattern always
  matches at position 0 (the leading group is optional and `.*` is total), so
  the classifier is a total function.  Lines are modelled without their
  trailing newline; `.*` stops at the newline, so the fallback body is the
  whole (stripped) line.  Inside the bracketed group the two `.` wildcards
  accept ANY character (not just a dot), while `[^:]*` takes the messenger up
  to the first colon, which must be followed by a space.
* `parseTs` — `pd.to_datetime(..., format="%d.%m.%y, %H:%M:%S")` (line 57) on
  the strings the regex can capture (exactly the 18-character shape above).
  Invalid dates (wrong separators, month 0 or > 12, day outside the month,
  hour > 23, ...) make `to_datetime` raise; we model the raise as `none`
  propagating through the pipeline (`parseChat` returns `none`).
  `%y` maps 69-99 to 1969-1999 and 00-68 to 2000-2068.  Timestamps are encoded
  as seconds in a proleptic Gregorian calendar, so differences are exact.
* `parseChat` — regex over all lines, then `df[df["message"] != ""]`
  (line 54, BEFORE the datetime conversion and the forward fill), then the
  datetime conversion plus the derived `date`/`time` columns (lines 57-59).
* `ffillRows` — `df.fillna(method="ffill")` (line 62): each column is filled
  forward independently; leading missing values stay missing.
* `senderChangeSubset` — `df[df["messenger"] != df["messenger"].shift(1)]`
  (line 65).  Pandas object-dtype `!=` semantics: the first row compares with
  the shifted-in NaN and is always kept; `None != None` is `False`,
  `'a' != None` is `True`.
* `addDiff` — `df_response_times["datetime"].diff()` (line 66): difference to
  the previous row OF THE SUBSET; the first row (and any row whose own or
  previous datetime is missing) gets NaT, modelled as `none`.
* `staleFilter` — `df_response_times[... <= pd.Timedelta(6, unit="h")]`
  (lines 67-68): a comparison with NaT is `False`, so rows with a missing or
  too-large response time are DROPPED from the subset.
* `mergeOuter` — `pd.merge(df, df_response_times, how="outer")` (line 69):
  joins on all common columns (datetime, messenger, message, date, time).
  Every left row is paired with every key-equal right row (a cartesian
  product on duplicate keys); a left row with no partner keeps an absent
  `response_time`; right rows without a partner would be appended (here the
  right frame is a subset of the left, so none exist).  As documented for
  `how="outer"`, pandas sorts the result lexicographically by the join keys;
  we model this with a stable insertion sort `sortRows` by the key tuple.
* `summaryTable` — the three per-sender averages saved to `out/results.csv`
  (lines 72-89).  The code iterates `messengers = set(df["messenger"])`; a
  Python set has no specified iteration order (string hashing is randomized
  across interpreter runs), so the enumeration order is an explicit parameter
  `order` of the model, constrained to be a duplicate-free enumeration of the
  sender set.  The numeric averages are modelled exactly over `ℚ`
  (`round` in Python rounds halves to even, `roundHalfEven`).

`refAnnotate` is the one definition written from the SPEC rather than the
source: the sequential sender-switch/response-time pass described in §4.3 of
the spec, used to compare the vectorized pandas code against the spec's
reading (refinement theorems below).
-/

namespace WhatsApp

/-- Result of classifying one raw line (spec's ParsedLine): the optional
captured datetime string, the optional messenger, and the message body. -/
structure ParsedLine where
  datetime : Option String
  messenger : Option String
  message : String
deriving DecidableEq

/-- The 18-character bracketed datetime of the regex:
`\d{2}.\d{2}.\d{2}, \d{2}:\d{2}:\d{2}` — two digits, ANY character, two
digits, ANY character, two digits, comma, space, then `hh:mm:ss` with literal
colons.  Returns the captured characters and the rest of the line. -/
def matchDatetime : List Char → Option (List Char × List Char)
  | a :: b :: c :: d :: e :: f :: g :: h :: i :: j :: k :: l :: m :: n :: o :: p :: q :: r :: rest =>
    if a.isDigit && b.isDigit && d.isDigit && e.isDigit && g.isDigit && h.isDigit
        && (i == ',') && (j == ' ') && k.isDigit && l.isDigit && (m == ':')
        && n.isDigit && o.isDigit && (p == ':') && q.isDigit && r.isDigit then
      some ([a, b, c, d, e, f, g, h, i, j, k, l, m, n, o, p, q, r], rest)
    else
      none
  | _ => none

/-- The optional leading group of the regex at position 0: `[`, the datetime,
`] `, then `[^:]*` (all characters up to the first colon) and `: `.
If the first colon is not followed by a space the whole group fails
(backtracking cannot move `[^:]*` past a colon). -/
def matchLine (cs : List Char) : Option (List Char × List Char × List Char) :=
  match cs with
  | '[' :: rest =>
    match matchDatetime rest with
    | some (dt, rest2) =>
      match rest2 with
      | ']' :: ' ' :: rest3 =>
        match rest3.span (fun c => c != ':') with
        | (m, ':' :: ' ' :: msg) => some (dt, m, msg)
        | _ => none
      | _ => none
    | none => none
  | _ => none

/-- `re.search(pattern, line).groupdict()` for one line (lines 49-50 of the
source).  The pattern always matches: if the optional leading group fails,
the whole line (without its trailing newline) is the message and both
captures are `None`. -/
def classifyLine (s : String) : ParsedLine :=
  match matchLine s.data with
  | some (dt, m, msg) => { datetime := some ⟨dt⟩, messenger := some ⟨m⟩, message := ⟨msg⟩ }
  | none => { datetime := none, messenger := none, message := s }

/-- Numeric value of a two-digit string. -/
def d2 (a b : Char) : Nat := (a.toNat - 48) * 10 + (b.toNat - 48)

def isLeapYear (y : Nat) : Bool := (y % 4 == 0 && y % 100 != 0) || y % 400 == 0

def daysInMonth (y m : Nat) : Nat :=
  if m == 2 then (if isLeapYear y then 29 else 28)
  else if m == 4 || m == 6 || m == 9 || m == 11 then 30
  else 31

/-- Days in the proleptic Gregorian years `0, ..., y-1`. -/
def daysBeforeYear (y : Nat) : Nat :=
  365 * y + (y + 3) / 4 - (y + 99) / 100 + (y + 399) / 400

/-- Days in the months `1, ..., m-1` of year `y`. -/
def daysBeforeMonth (y m : Nat) : Nat :=
  (List.range (m - 1)).foldl (fun acc i => acc + daysInMonth y (i + 1)) 0

/-- Seconds since year 0 of a calendar datetime (proleptic Gregorian). -/
def epochSeconds (y m d hh mi ss : Nat) : Nat :=
  (daysBeforeYear y + daysBeforeMonth y m + (d - 1)) * 86400 + hh * 3600 + mi * 60 + ss

/-- `pd.to_datetime(s, format="%d.%m.%y, %H:%M:%S")` on a string of the shape
captured by the regex.  The format requires literal dots where the regex
accepted ANY character, and a semantically valid date and time; otherwise
`to_datetime` raises, modelled as `none`. -/
def parseTs (s : String) : Option Nat :=
  match s.data with
  | [a, b, c, d, e, f, g, h, i, j, k, l, m, n, o, p, q, r] =>
    if a.isDigit && b.isDigit && (c == '.') && d.isDigit && e.isDigit && (f == '.')
        && g.isDigit && h.isDigit && (i == ',') && (j == ' ') && k.isDigit && l.isDigit
        && (m == ':') && n.isDigit && o.isDigit && (p == ':') && q.isDigit && r.isDigit then
      let dd := d2 a b
      let mm := d2 d e
      let yy := d2 g h
      let hh := d2 k l
      let mi := d2 n o
      let ss := d2 q r
      let y := if yy ≥ 69 then 1900 + yy else 2000 + yy
      if 1 ≤ mm && mm ≤ 12 && 1 ≤ dd && dd ≤ daysInMonth y mm
          && hh ≤ 23 && mi ≤ 59 && ss ≤ 59 then
        some (epochSeconds y mm dd hh mi ss)
      else none
    else none
  | _ => none

/-- One row of the dataframe: `datetime` (seconds, `none` = NaT), `messenger`
(`none` = missing), `message`, the derived `date` (days) and `time`
(seconds within the day) columns, and the `response_time` column (seconds,
`none` = NaT / column absent). -/
structure Row where
  datetime : Option Nat
  messenger : Option String
  message : String
  date : Option Nat
  time : Option Nat
  response_time : Option Int
deriving DecidableEq

/-- A default row (used only to index concrete lists in closed statements). -/
def row0 : Row := ⟨none, none, "", none, none, none⟩

/-- Lines 57-59: convert the captured datetime string (raising on failure)
and derive the `date` and `time` columns. -/
def toRow (p : ParsedLine) : Option Row :=
  match p.datetime with
  | none => some ⟨none, p.messenger, p.message, none, none, none⟩
  | some s =>
    match parseTs s with
    | none => none
    | some t => some ⟨some t, p.messenger, p.message, some (t / 86400), some (t % 86400), none⟩

def toRows : List ParsedLine → Option (List Row)
  | [] => some []
  | p :: ps =>
    match toRow p, toRows ps with
    | some r, some rs => some (r :: rs)
    | _, _ => none

/-- Lines 49-59: classify every line, drop rows whose message is empty
(`df[df["message"] != ""]`, line 54 — BEFORE the forward fill), then convert
datetimes.  `none` models the `to_datetime` exception aborting the run. -/
def parseChat (lines : List String) : Option (List Row) :=
  toRows ((lines.map classifyLine).filter (fun p => p.message != ""))

/-- One column cell of `fillna(method="ffill")`: keep a present value,
otherwise the carried one. -/
def fillField (carry : Option α) (x : Option α) : Option α :=
  match x with
  | some v => some v
  | none => carry

/-- Line 62, `df.fillna(method="ffill")`: forward-fill the `datetime`,
`messenger`, `date` and `time` columns independently; leading missing values
stay missing. -/
def ffillRows (cdt : Option Nat) (cms : Option String) (cda cti : Option Nat) :
    List Row → List Row
  | [] => []
  | r :: rs =>
    let dt := fillField cdt r.datetime
    let ms := fillField cms r.messenger
    let da := fillField cda r.date
    let ti := fillField cti r.time
    ⟨dt, ms, r.message, da, ti, r.response_time⟩ :: ffillRows dt ms da ti rs

/-- Lines 45-62: the reconstructed MessageRecord sequence. -/
def reconstruct (lines : List String) : Option (List Row) :=
  (parseChat lines).map (ffillRows none none none none)

/-- Pandas object-dtype `!=` on two cells that are a string or missing:
`None != None` is `False`, any comparison of a string with `None` is `True`. -/
def neObj : Option String → Option String → Bool
  | some a, some b => a != b
  | none, none => false
  | _, _ => true

/-- Whether a row enters the sender-change subset, given the previous row's
messenger cell (`none` = no previous row: the comparison with the shifted-in
NaN is always `True`, so the first row is always kept). -/
def keepFlag (prev : Option (Option String)) (m : Option String) : Bool :=
  match prev with
  | none => true
  | some p => neObj m p

/-- Line 65, `df[df["messenger"] != df["messenger"].shift(1)]`.  The state is
the previous row's messenger cell. -/
def senderChangeSubset : Option (Option String) → List Row → List Row
  | _, [] => []
  | prev, r :: rs =>
    let rest := senderChangeSubset (some r.messenger) rs
    if keepFlag prev r.messenger then r :: rest else rest

/-- Line 66, `df_response_times["datetime"].diff()`: difference of each
subset row's datetime with the previous subset row's datetime (NaT when
either is missing or there is no previous row). -/
def addDiff : Option Nat → List Row → List Row
  | _, [] => []
  | prev, r :: rs =>
    { r with
      response_time :=
        match prev, r.datetime with
        | some a, some b => some ((b : Int) - (a : Int))
        | _, _ => none } :: addDiff r.datetime rs

/-- Line 39: hours before a response is considered stale. -/
def response_timelimit : Nat := 6

/-- Lines 67-68: keep only subset rows with `response_time <= tl`;
a NaT response time compares `False` and the row is dropped. -/
def staleFilter (tl : Int) (l : List Row) : List Row :=
  l.filter fun r =>
    match r.response_time with
    | some v => decide (v ≤ tl)
    | none => false

/-- The tuple of the merge keys of `pd.merge(df, df_response_times)`:
all common columns, in the left frame's column order. -/
def keyOf (r : Row) : Option Nat × Option String × String × Option Nat × Option Nat :=
  (r.datetime, r.messenger, r.message, r.date, r.time)

def keyEq (a b : Row) : Bool := keyOf a == keyOf b

/-- Lexicographic comparison of two option cells (missing sorts first). -/
def cmpOpt (c : α → α → Ordering) : Option α → Option α → Ordering
  | none, none => .eq
  | none, some _ => .lt
  | some _, none => .gt
  | some a, some b => c a b

/-- Lexicographic comparison of the merge-key tuples. -/
def cmpKeyRows (a b : Row) : Ordering :=
  (cmpOpt compare a.datetime b.datetime).then
    ((cmpOpt compare a.messenger b.messenger).then
      ((compare a.message b.message).then
        ((cmpOpt compare a.date b.date).then
          (cmpOpt compare a.time b.time))))

def keyLe (a b : Row) : Bool := cmpKeyRows a b != Ordering.gt

/-- Stable insertion of a row into a key-sorted list (an earlier row goes
before key-equal later rows). -/
def insertRow (r : Row) : List Row → List Row
  | [] => [r]
  | x :: xs => if keyLe r x then r :: x :: xs else x :: insertRow r xs

/-- Stable sort by the merge keys: `how="outer"` sorts the join keys
lexicographically. -/
def sortRows : List Row → List Row
  | [] => []
  | x :: xs => insertRow x (sortRows xs)

/-- Concatenation of per-row join partners. -/
def expandJoin (f : Row → List Row) : List Row → List Row
  | [] => []
  | x :: xs => f x ++ expandJoin f xs

/-- Line 69, `pd.merge(df, df_response_times, how="outer")`: every left row
paired with every key-equal right row (right rows already carry the merged
field values, their keys being equal), a left row without partners keeps an
absent `response_time`, unmatched right rows are appended, and the result is
sorted lexicographically by the join keys. -/
def mergeOuter (left right : List Row) : List Row :=
  sortRows
    (expandJoin
      (fun l =>
        match right.filter (fun q => keyEq l q) with
        | [] => [{ l with response_time := none }]
        | ms => ms)
      left
     ++ right.filter (fun q => !(left.any (fun l => keyEq l q))))

/-- Lines 64-69: the whole response-time stage on the record sequence. -/
def responseStage (tl : Int) (rows : List Row) : List Row :=
  mergeOuter rows (staleFilter tl (addDiff none (senderChangeSubset none rows)))

/-- The full pipeline from raw lines to the merged record sequence. -/
def pipeline (lines : List String) : Option (List Row) :=
  (reconstruct lines).map (responseStage ((response_timelimit : Int) * 3600))

/-- A fully attributed MessageRecord (the spec's data model): sender and
timestamp always present. -/
structure Rec where
  sender : String
  ts : Nat
  body : String
deriving DecidableEq

/-- The dataframe row of a fully attributed record. -/
def recRow (r : Rec) : Row :=
  ⟨some r.ts, some r.sender, r.body, some (r.ts / 86400), some (r.ts % 86400), none⟩

/-- The response-time stage applied to a MessageRecord sequence. -/
def recordStage (tl : Int) (recs : List Rec) : List Row :=
  responseStage tl (recs.map recRow)

/-- The spec's response-time rule for a sender-switch record: the gap to the
previous switch point, kept only when it does not exceed the threshold. -/
def rtRule (tl : Int) : Option Nat → Option Nat → Option Int
  | some a, some b => if (b : Int) - (a : Int) ≤ tl then some ((b : Int) - (a : Int)) else none
  | _, _ => none

/-- Modelled from the spec (§4.3): the sequential single-pass reading of the
response-time stage — walk the records carrying the previous row's messenger
and the datetime of the last sender-switch point; a switch row gets
`rtRule`, any other row gets no response time.  Used as the reference
implementation the pandas code is compared against. -/
def refAnnotate (tl : Int) : Option (Option String) → Option Nat → List Row → List Row
  | _, _, [] => []
  | pm, pd, r :: rs =>
    if keepFlag pm r.messenger then
      { r with response_time := rtRule tl pd r.datetime } ::
        refAnnotate tl (some r.messenger) r.datetime rs
    else
      { r with response_time := none } :: refAnnotate tl (some r.messenger) pd rs

/-- A row with its `response_time` column removed (the left frame of the
merge). -/
def stripRt (r : Row) : Row := { r with response_time := none }

/-- Adjacent pairs of a list, in order. -/
def zipAdj : List α → List (α × α)
  | a :: b :: rest => (a, b) :: zipAdj (b :: rest)
  | _ => []

/-- The last present value of a column segment (the value `ffill` carries
past it). -/
def lastSome : List (Option α) → Option α
  | [] => none
  | x :: l =>
    match lastSome l with
    | some v => some v
    | none => x

/-- `df[df["messenger"] == m]` (lines 75-91). -/
def rowsOf (rows : List Row) (m : Option String) : List Row :=
  rows.filter (fun r => r.messenger == m)

/-- Exact arithmetic mean (empty list gives `0/0 = 0`). -/
def meanQ (l : List ℚ) : ℚ := l.sum / (l.length : ℚ)

/-- Python's `round` on an exact value: round half to even. -/
def roundHalfEven (q : ℚ) : ℤ :=
  if q - ⌊q⌋ < 1 / 2 then ⌊q⌋
  else if q - ⌊q⌋ = 1 / 2 then (if 2 ∣ ⌊q⌋ then ⌊q⌋ else ⌊q⌋ + 1)
  else ⌊q⌋ + 1

/-- Line 75: mean of the (present) response times of one sender's rows;
`NaN` (no present value) is `none`. -/
def avgResponseTime (rows : List Row) (m : Option String) : Option ℚ :=
  let vs := (rowsOf rows m).filterMap (fun r => r.response_time)
  if vs.isEmpty then none
  else some (((vs.map (fun v => (v : ℚ))).sum) / (vs.length : ℚ))

/-- Line 77: rounded mean length of one sender's messages. -/
def avgMessageLength (rows : List Row) (m : Option String) : ℤ :=
  roundHalfEven (meanQ ((rowsOf rows m).map (fun r => (r.message.length : ℚ))))

/-- Line 79: `len(set(df["date"]))`. -/
def dateCount (rows : List Row) : Nat :=
  (rows.map (fun r => r.date)).dedup.length

/-- Line 79: messages per distinct calendar day for one sender. -/
def avgPerDay (rows : List Row) (m : Option String) : ℚ :=
  ((rowsOf rows m).length : ℚ) / (dateCount rows : ℚ)

/-- Lines 72-88: the summary table written to `out/results.csv`, one column
per sender in the order the sender set is enumerated (`order`), each column
holding the three averages. -/
def summaryTable (order : List (Option String)) (rows : List Row) :
    List (Option String × (Option ℚ × ℤ × ℚ)) :=
  order.map (fun m => (m, (avgResponseTime rows m, avgMessageLength rows m, avgPerDay rows m)))

/-- `order` is a possible iteration order of `set(df["messenger"])` (line
72): duplicate-free and containing exactly the senders of the merged frame. -/
abbrev validOrder (rows : List Row) (o : List (Option String)) : Prop :=
  o.Nodup ∧ (∀ m ∈ o, m ∈ rows.map (fun r => r.messenger))
    ∧ (∀ m ∈ rows.map (fun r => r.messenger), m ∈ o)

/-- One program run: the merged record sequence and the summary table, given
the iteration order the sender set happened to produce in that run. -/
def runSummary (lines : List String) (order : List (Option String)) :
    Option (List Row × List (Option String × (Option ℚ × ℤ × ℚ))) :=
  (pipeline lines).map (fun df => (df, summaryTable order df))

/-- Claim C1, formalised: for adjacent sender-switch points `(p, c)` of the
code's sender-change subsequence, a merged output row carrying `c`'s merge
key exists, and every such row's `response_time` equals the gap
`c.datetime - p.datetime` exactly when the gap is at most the threshold
(`rtRule`), and is absent otherwise. -/
abbrev claimC1 (tl : Int) (recs : List Rec) : Prop :=
  ∀ pc ∈ zipAdj (senderChangeSubset none (recs.map recRow)),
    (∃ o ∈ recordStage tl recs, keyOf o = keyOf pc.2) ∧
    (∀ o ∈ recordStage tl recs, keyOf o = keyOf pc.2 →
      o.response_time = rtRule tl pc.1.datetime pc.2.datetime)

/-- Claim C2, formalised: a record whose sender equals the previous record's
sender never yields an output row (identified by its merge key) with a
present `response_time`. -/
abbrev claimC2 (tl : Int) (recs : List Rec) : Prop :=
  ∀ pc ∈ zipAdj recs, pc.1.sender = pc.2.sender →
    ∀ o ∈ recordStage tl recs, keyOf o = keyOf (recRow pc.2) → o.response_time = none

/-- Claim C8, formalised: dropping the `response_time` column from the merged
output yields exactly the reconstructed records in input order, and a row
with a present `response_time` is (by merge key) a sender-switch record. -/
abbrev claimC8 (tl : Int) (recs : List Rec) : Prop :=
  ((recordStage tl recs).map stripRt = recs.map recRow) ∧
  ∀ o ∈ recordStage tl recs, o.response_time ≠ none →
    ∃ pc ∈ zipAdj recs, pc.1.sender ≠ pc.2.sender ∧ keyOf o = keyOf (recRow pc.2)

/-- The spec's Scenario A record sequence (three messages, one sender
switch after five minutes). -/
def scenA : List Rec :=
  [⟨"Alice", 0, "Hi"⟩, ⟨"Bob", 300, "Hello"⟩, ⟨"Bob", 360, "How are you"⟩]

/-- Concrete input for claim C1: the second record is a sender switch with a
7-hour gap and shares its (timestamp, sender, body) with the fourth. -/
def ceC1 : List Rec :=
  [⟨"A", 0, "a"⟩, ⟨"B", 25200, "y"⟩, ⟨"A", 25200, "z"⟩, ⟨"B", 25200, "y"⟩]

/-- Concrete input for claim C2: the third record repeats the second
(same timestamp, sender and body) but is not a sender switch. -/
def ceC2 : List Rec := [⟨"A", 0, "a"⟩, ⟨"B", 60, "y"⟩, ⟨"B", 60, "y"⟩]

/-- Concrete input for claim C8: two records with equal timestamps whose
senders are in reverse alphabetical order. -/
def ceC8 : List Rec := [⟨"b", 0, "hi"⟩, ⟨"a", 0, "yo"⟩]

/-- Concrete input for claim C3: the first line has no timestamp/sender
prefix. -/
def ceC3 : List String := ["hello", "[01.01.23, 10:00:00] Alice: hi"]

/-- Concrete input for claim C4: the grammar's wildcard dots accept `x`, so
the prefix matches, but the captured datetime is not a valid
`%d.%m.%y, %H:%M:%S` string and `to_datetime` raises. -/
def ceC4line : String := "[01x01x23, 10:00:00] Bob: hi"

/-- Concrete input for claim C5: the second line is prefixed but has an
empty body (so it is dropped before the forward fill), and the third line is
a continuation. -/
def ceC5 : List String :=
  ["[01.01.23, 10:00:00] Alice: Hi", "[01.01.23, 10:05:00] Bob: ", "there"]

/-- Concrete input for claim C7: two senders. -/
def ceC7 : List String :=
  ["[01.01.23, 10:00:00] Alice: hi", "[01.01.23, 10:05:00] Bob: yo"]

/-- Concrete input for claim C10: the first line is prefixed, and the
continuation line "x" reconstructs to a record identical (in timestamp,
sender and body) to the second line's sender-switch record. -/
def ceC10 : List String :=
  ["[01.01.23, 10:00:00] Alice: hi", "[01.01.23, 10:00:00] Bob: x", "x"]

/-- The spec's Scenario B input (a message and a continuation line). -/
def scenB : List String := ["[01.01.23, 10:00:00] Alice: Hi", "there"]

/-- The parsed row of Scenario B's first line. -/
def rowB1 : Row := (toRow (classifyLine "[01.01.23, 10:00:00] Alice: Hi")).getD row0

/-- The parsed row of Scenario B's continuation line. -/
def rowB2 : Row := (toRow (classifyLine "there")).getD row0

/-! ### Basic lemmas about the embedded combinators -/

theorem keyOf_stripRt (r : Row) : keyOf (stripRt r) = keyOf r := rfl

theorem keyOf_setRt (r : Row) (v : Option Int) :
    keyOf { r with response_time := v } = keyOf r := rfl

theorem stripRt_setRt (r : Row) (v : Option Int) :
    stripRt { r with response_time := v } = stripRt r := rfl

theorem stripRt_of_none {r : Row} (h : r.response_time = none) : stripRt r = r := by
  cases r
  simp only [stripRt]
  simp_all

theorem keyLe_stripRt (a b : Row) : keyLe (stripRt a) (stripRt b) = keyLe a b := rfl

theorem mem_insertRow (x r : Row) (l : List Row) :
    x ∈ insertRow r l ↔ x = r ∨ x ∈ l := by
  induction l with
  | nil => simp [insertRow]
  | cons y ys ih =>
    simp only [insertRow]
    split
    · simp [List.mem_cons]
    · simp only [List.mem_cons, ih]
      tauto

theorem mem_sortRows (x : Row) (l : List Row) : x ∈ sortRows l ↔ x ∈ l := by
  induction l with
  | nil => simp [sortRows]
  | cons y ys ih => simp [sortRows, mem_insertRow, ih]

theorem map_stripRt_insertRow (r : Row) (l : List Row) :
    (insertRow r l).map stripRt = insertRow (stripRt r) (l.map stripRt) := by
  induction l with
  | nil => rfl
  | cons y ys ih =>
    simp only [insertRow, keyLe_stripRt, List.map_cons]
    split
    · simp
    · simp only [List.map_cons, ih]

theorem map_stripRt_sortRows (l : List Row) :
    (sortRows l).map stripRt = sortRows (l.map stripRt) := by
  induction l with
  | nil => rfl
  | cons y ys ih => simp only [sortRows, List.map_cons, map_stripRt_insertRow, ih]

theorem mem_expandJoin (f : Row → List Row) (o : Row) (l : List Row) :
    o ∈ expandJoin f l ↔ ∃ x ∈ l, o ∈ f x := by
  induction l with
  | nil => simp [expandJoin]
  | cons y ys ih => simp [expandJoin, ih]

theorem expandJoin_congr {f g : Row → List Row} :
    ∀ {l : List Row}, (∀ x ∈ l, f x = g x) → expandJoin f l = expandJoin g l
  | [], _ => rfl
  | y :: ys, h => by
    simp only [expandJoin]
    rw [h y (List.mem_cons_self y ys), expandJoin_congr (fun x hx => h x (List.mem_cons_of_mem y hx))]

theorem senderChangeSubset_sublist (pm : Option (Option String)) (rows : List Row) :
    List.Sublist (senderChangeSubset pm rows) rows := by
  induction rows generalizing pm with
  | nil => simp [senderChangeSubset]
  | cons r rs ih =>
    simp only [senderChangeSubset]
    by_cases h : keepFlag pm r.messenger = true
    · rw [if_pos h]
      exact (ih (some r.messenger)).cons₂ r
    · rw [if_neg h]
      exact (ih (some r.messenger)).cons r

theorem mem_addDiff {o : Row} :
    ∀ {pd : Option Nat} {l : List Row}, o ∈ addDiff pd l → ∃ x ∈ l, stripRt o = stripRt x
  | _, [], h => by simp [addDiff] at h
  | pd, x :: xs, h => by
    simp only [addDiff, List.mem_cons] at h
    cases h with
    | inl h => exact ⟨x, List.mem_cons_self x xs, by rw [h, stripRt_setRt]⟩
    | inr h =>
      obtain ⟨y, hy, he⟩ := mem_addDiff h
      exact ⟨y, List.mem_cons_of_mem x hy, he⟩

theorem mem_staleFilter {tl : Int} {o : Row} {l : List Row} (h : o ∈ staleFilter tl l) :
    o ∈ l ∧ ∃ v, o.response_time = some v ∧ v ≤ tl := by
  simp only [staleFilter, List.mem_filter] at h
  refine ⟨h.1, ?_⟩
  rcases h with ⟨-, hb⟩
  cases hrt : o.response_time with
  | none => rw [hrt] at hb; simp at hb
  | some v =>
    rw [hrt] at hb
    simp only [decide_eq_true_eq] at hb
    exact ⟨v, rfl, hb⟩

/-! ### The sequential reading of the response-time stage -/

theorem staleFilter_addDiff_cons (tl : Int) (r : Row) (tail : List Row) (pd : Option Nat) :
    staleFilter tl (addDiff pd (r :: tail)) =
      (match rtRule tl pd r.datetime with
       | some v => { r with response_time := some v } :: staleFilter tl (addDiff r.datetime tail)
       | none => staleFilter tl (addDiff r.datetime tail)) := by
  simp only [addDiff, staleFilter, List.filter_cons]
  cases pd with
  | none => rfl
  | some a =>
    cases hdt : r.datetime with
    | none => rfl
    | some b =>
      by_cases h : (b : Int) - (a : Int) ≤ tl
      · simp [rtRule, h]
      · simp [rtRule, h]

theorem staleFilter_addDiff_subset (tl : Int) :
    ∀ (rows : List Row) (pm : Option (Option String)) (pd : Option Nat),
      staleFilter tl (addDiff pd (senderChangeSubset pm rows)) =
        (refAnnotate tl pm pd rows).filter (fun r => r.response_time.isSome) := by
  intro rows
  induction rows with
  | nil => intro pm pd; rfl
  | cons r rs ih =>
    intro pm pd
    by_cases h : keepFlag pm r.messenger = true
    · have hsub : senderChangeSubset pm (r :: rs) =
          r :: senderChangeSubset (some r.messenger) rs := by
        simp only [senderChangeSubset]; rw [if_pos h]
      have href : refAnnotate tl pm pd (r :: rs) =
          { r with response_time := rtRule tl pd r.datetime } ::
            refAnnotate tl (some r.messenger) r.datetime rs := by
        simp only [refAnnotate]; rw [if_pos h]
      rw [hsub, href, staleFilter_addDiff_cons, List.filter_cons]
      cases hrt : rtRule tl pd r.datetime with
      | none => simp [hrt, ih]
      | some v => simp [hrt, ih]
    · have hsub : senderChangeSubset pm (r :: rs) =
          senderChangeSubset (some r.messenger) rs := by
        simp only [senderChangeSubset]; rw [if_neg h]
      have href : refAnnotate tl pm pd (r :: rs) =
          { r with response_time := none } ::
            refAnnotate tl (some r.messenger) pd rs := by
        simp only [refAnnotate]; rw [if_neg h]
      rw [hsub, href, List.filter_cons]
      simp [ih]

theorem map_stripRt_refAnnotate (tl : Int) :
    ∀ (rows : List Row) (pm : Option (Option String)) (pd : Option Nat),
      (refAnnotate tl pm pd rows).map stripRt = rows.map stripRt := by
  intro rows
  induction rows with
  | nil => intro pm pd; rfl
  | cons r rs ih =>
    intro pm pd
    by_cases h : keepFlag pm r.messenger = true
    · simp only [refAnnotate]
      rw [if_pos h]
      simp only [List.map_cons, stripRt_setRt, ih]
    · simp only [refAnnotate]
      rw [if_neg h]
      simp only [List.map_cons, stripRt_setRt, ih]

theorem keyInj : ∀ {A : List Row}, ((A.map keyOf).Nodup) →
    ∀ {a : Row}, a ∈ A → ∀ {b : Row}, b ∈ A → keyOf a = keyOf b → a = b := by
  intro A
  induction A with
  | nil => simp
  | cons x xs ih =>
    intro hnd a ha b hb hk
    simp only [List.map_cons, List.nodup_cons] at hnd
    rcases List.mem_cons.mp ha with ha1 | ha2
    · rcases List.mem_cons.mp hb with hb1 | hb2
      · rw [ha1, hb1]
      · have hx : keyOf x ∈ List.map keyOf xs := by
          rw [← ha1, hk]
          exact List.mem_map_of_mem keyOf hb2
        exact absurd hx hnd.1
    · rcases List.mem_cons.mp hb with hb1 | hb2
      · have hx : keyOf x ∈ List.map keyOf xs := by
          rw [← hb1, ← hk]
          exact List.mem_map_of_mem keyOf ha2
        exact absurd hx hnd.1
      · exact ih hnd.2 ha2 hb2 hk

theorem keyEq_true_iff (a b : Row) : keyEq a b = true ↔ keyOf a = keyOf b := by
  simp [keyEq]

theorem keyEq_stripRt_self (a : Row) : keyEq (stripRt a) a = true := by
  simp [keyEq, keyOf_stripRt]

theorem filter_keyEq_nil {l : Row} {R : List Row} (h : ∀ q ∈ R, keyOf q ≠ keyOf l) :
    R.filter (fun q => keyEq l q) = [] := by
  rw [List.filter_eq_nil_iff]
  intro q hq hkq
  exact h q hq ((keyEq_true_iff l q).mp hkq).symm

/-- The left expansion of the outer merge, when the left frame is the merged
annotation list with its `response_time` column dropped and the merge keys
are pairwise distinct, reproduces the annotation list itself. -/
theorem expandJoin_filter : ∀ (A : List Row), (((A.map stripRt).map keyOf).Nodup) →
    expandJoin
      (fun l =>
        match (A.filter (fun q => q.response_time.isSome)).filter (fun q => keyEq l q) with
        | [] => [{ l with response_time := none }]
        | ms => ms)
      (A.map stripRt) = A := by
  intro A
  induction A with
  | nil => intro _; rfl
  | cons a A' ih =>
    intro hnd
    simp only [List.map_cons, List.nodup_cons] at hnd
    have hnotin : ∀ q ∈ A', keyOf q ≠ keyOf (stripRt a) := by
      intro q hq he
      apply hnd.1
      rw [← he, ← keyOf_stripRt q]
      exact List.mem_map_of_mem keyOf (List.mem_map_of_mem stripRt hq)
    have hR' : (A'.filter (fun q => q.response_time.isSome)).filter
        (fun q => keyEq (stripRt a) q) = [] := by
      apply filter_keyEq_nil
      intro q hq
      exact hnotin q (List.mem_of_mem_filter hq)
    have hhead :
        (match ((a :: A').filter (fun q => q.response_time.isSome)).filter
            (fun q => keyEq (stripRt a) q) with
          | [] => [{ stripRt a with response_time := none }]
          | ms => ms) = [a] := by
      rw [List.filter_cons]
      cases hrt : a.response_time with
      | some v =>
        have : (a :: A'.filter (fun q => q.response_time.isSome)).filter
            (fun q => keyEq (stripRt a) q) = [a] := by
          rw [List.filter_cons, hR']
          simp [keyEq_stripRt_self]
        simp only [hrt, Option.isSome_some, if_pos]
        rw [this]
      | none =>
        have hsa : stripRt a = a := stripRt_of_none hrt
        simp only [hrt, Option.isSome_none, Bool.false_eq_true, if_false]
        rw [hR']
        show [({ stripRt a with response_time := none } : Row)] = [a]
        rw [show ({ stripRt a with response_time := none } : Row) = stripRt (stripRt a) from rfl]
        rw [stripRt_of_none rfl, hsa]
    have htail :
        expandJoin
          (fun l =>
            match ((a :: A').filter (fun q => q.response_time.isSome)).filter
                (fun q => keyEq l q) with
            | [] => [{ l with response_time := none }]
            | ms => ms)
          (A'.map stripRt)
        = expandJoin
          (fun l =>
            match (A'.filter (fun q => q.response_time.isSome)).filter
                (fun q => keyEq l q) with
            | [] => [{ l with response_time := none }]
            | ms => ms)
          (A'.map stripRt) := by
      apply expandJoin_congr
      intro l hl
      have hfilt : (a :: A'.filter (fun q => q.response_time.isSome)).filter
            (fun q => keyEq l q)
          = (A'.filter (fun q => q.response_time.isSome)).filter (fun q => keyEq l q) := by
        rw [List.filter_cons]
        have : keyEq l a = false := by
          rcases List.mem_map.mp hl with ⟨x, hx, rfl⟩
          rw [Bool.eq_false_iff]
          intro hkq
          have hke := (keyEq_true_iff (stripRt x) a).mp hkq
          apply hnd.1
          rw [keyOf_stripRt a, ← hke]
          exact List.mem_map_of_mem keyOf (List.mem_map_of_mem stripRt hx)
        simp [this]
      rw [List.filter_cons]
      cases hrt : a.response_time with
      | some v =>
        simp only [hrt, Option.isSome_some, if_pos]
        rw [hfilt]
      | none =>
        simp only [hrt, Option.isSome_none, Bool.false_eq_true, if_neg, not_false_iff]
    simp only [List.map_cons, expandJoin]
    rw [hhead, htail, ih hnd.2]
    rfl

/-- Every row of the filtered subset finds a key-equal partner in the full
frame, so the outer merge appends no extra rows. -/
theorem unmatched_nil (left R : List Row) (h : ∀ q ∈ R, stripRt q ∈ left) :
    R.filter (fun q => !(left.any (fun l => keyEq l q))) = [] := by
  rw [List.filter_eq_nil_iff]
  intro q hq hb
  rw [Bool.not_eq_true', List.any_eq_false] at hb
  exact absurd (keyEq_stripRt_self q) (hb (stripRt q) (h q hq))

/-- Refinement: with pairwise-distinct merge keys and no pre-existing
`response_time` column, the vectorized response-time stage (subset, diff,
staleness filter, outer merge) computes exactly the key-sorted sequential
annotation of the spec. -/
theorem responseStage_eq_refAnnotate (tl : Int) (rows : List Row)
    (hnd : ((rows.map keyOf).Nodup)) (h0 : ∀ r ∈ rows, r.response_time = none) :
    responseStage tl rows = sortRows (refAnnotate tl none none rows) := by
  have hstrip : (refAnnotate tl none none rows).map stripRt = rows := by
    rw [map_stripRt_refAnnotate]
    apply List.map_congr_left ?_ |>.trans (List.map_id rows)
    intro r hr
    exact stripRt_of_none (h0 r hr)
  have hnd' : (((refAnnotate tl none none rows).map stripRt).map keyOf).Nodup := by
    rw [hstrip]; exact hnd
  have hmem : ∀ q ∈ (refAnnotate tl none none rows).filter
      (fun r => r.response_time.isSome), stripRt q ∈ rows := by
    intro q hq
    rw [← hstrip]
    exact List.mem_map_of_mem stripRt (List.mem_of_mem_filter hq)
  unfold responseStage mergeOuter
  rw [staleFilter_addDiff_subset]
  rw [unmatched_nil rows _ hmem, List.append_nil]
  have hexp := expandJoin_filter (refAnnotate tl none none rows) hnd'
  rw [hstrip] at hexp
  rw [hexp]

/-! ### Adjacent pairs -/

theorem mem_zipAdj_cons {α : Type _} {pc : α × α} {a : α} {l : List α}
    (h : pc ∈ zipAdj (a :: l)) :
    (∃ t, l = pc.2 :: t ∧ pc.1 = a) ∨ pc ∈ zipAdj l := by
  cases l with
  | nil => simp [zipAdj] at h
  | cons b rest =>
    rw [zipAdj] at h
    rcases List.mem_cons.mp h with h1 | h2
    · exact Or.inl ⟨rest, by rw [h1], by rw [h1]⟩
    · exact Or.inr h2

theorem mem_zipAdj_tail {α : Type _} {pc : α × α} {x : α} {l : List α}
    (h : pc ∈ zipAdj l) : pc ∈ zipAdj (x :: l) := by
  cases l with
  | nil => simp [zipAdj] at h
  | cons b rest =>
    rw [zipAdj]
    exact List.mem_cons_of_mem _ h

theorem mem_zipAdj_head {α : Type _} (a b : α) (l : List α) :
    (a, b) ∈ zipAdj (a :: b :: l) := by
  rw [zipAdj]
  exact List.mem_cons_self _ _

theorem mem_zipAdj_map {α β : Type _} (f : α → β) :
    ∀ {l : List α} {pc : α × α}, pc ∈ zipAdj l → (f pc.1, f pc.2) ∈ zipAdj (l.map f)
  | [], _, h => by simp [zipAdj] at h
  | [_], _, h => by simp [zipAdj] at h
  | a :: b :: rest, pc, h => by
    rw [zipAdj] at h
    rcases List.mem_cons.mp h with h1 | h2
    · rw [h1]
      simp only [List.map_cons]
      exact mem_zipAdj_head _ _ _
    · simp only [List.map_cons]
      exact mem_zipAdj_tail (mem_zipAdj_map f h2)

theorem pairwise_zipAdj {α : Type _} {r : α → α → Prop} :
    ∀ {l : List α}, l.Pairwise r → ∀ pc ∈ zipAdj l, r pc.1 pc.2
  | [], _, _, h => by simp [zipAdj] at h
  | [_], _, _, h => by simp [zipAdj] at h
  | a :: b :: rest, hp, pc, h => by
    rw [zipAdj] at h
    rw [List.pairwise_cons] at hp
    rcases List.mem_cons.mp h with h1 | h2
    · rw [h1]
      exact hp.1 b (List.mem_cons_self _ _)
    · exact pairwise_zipAdj hp.2 pc h2

/-! ### Membership facts about the sequential annotation -/

theorem refAnnotate_head_mem (tl : Int) :
    ∀ (rs : List Row) (pm : Option (Option String)) (pd : Option Nat) (c : Row) (t : List Row),
      senderChangeSubset pm rs = c :: t →
      { c with response_time := rtRule tl pd c.datetime } ∈ refAnnotate tl pm pd rs := by
  intro rs
  induction rs with
  | nil => intro pm pd c t h; simp [senderChangeSubset] at h
  | cons x xs ih =>
    intro pm pd c t h
    by_cases hk : keepFlag pm x.messenger = true
    · have hsub : senderChangeSubset pm (x :: xs) =
          x :: senderChangeSubset (some x.messenger) xs := by
        simp only [senderChangeSubset]; rw [if_pos hk]
      rw [hsub] at h
      have hc : c = x := by
        injection h with h1 h2
        exact h1.symm
      have href : refAnnotate tl pm pd (x :: xs) =
          { x with response_time := rtRule tl pd x.datetime } ::
            refAnnotate tl (some x.messenger) x.datetime xs := by
        simp only [refAnnotate]; rw [if_pos hk]
      rw [href, hc]
      exact List.mem_cons_self _ _
    · have hsub : senderChangeSubset pm (x :: xs) =
          senderChangeSubset (some x.messenger) xs := by
        simp only [senderChangeSubset]; rw [if_neg hk]
      have href : refAnnotate tl pm pd (x :: xs) =
          { x with response_time := none } ::
            refAnnotate tl (some x.messenger) pd xs := by
        simp only [refAnnotate]; rw [if_neg hk]
      rw [hsub] at h
      rw [href]
      exact List.mem_cons_of_mem _ (ih (some x.messenger) pd c t h)

theorem refAnnotate_switch_pair_mem (tl : Int) :
    ∀ (rows : List Row) (pm : Option (Option String)) (pd : Option Nat)
      (pc : Row × Row), pc ∈ zipAdj (senderChangeSubset pm rows) →
      { pc.2 with response_time := rtRule tl pc.1.datetime pc.2.datetime } ∈
        refAnnotate tl pm pd rows := by
  intro rows
  induction rows with
  | nil => intro pm pd pc h; simp [senderChangeSubset, zipAdj] at h
  | cons r rs ih =>
    intro pm pd pc h
    by_cases hk : keepFlag pm r.messenger = true
    · have hsub : senderChangeSubset pm (r :: rs) =
          r :: senderChangeSubset (some r.messenger) rs := by
        simp only [senderChangeSubset]; rw [if_pos hk]
      have href : refAnnotate tl pm pd (r :: rs) =
          { r with response_time := rtRule tl pd r.datetime } ::
            refAnnotate tl (some r.messenger) r.datetime rs := by
        simp only [refAnnotate]; rw [if_pos hk]
      rw [hsub] at h
      rw [href]
      rcases mem_zipAdj_cons h with ⟨t, ht, hp1⟩ | htail
      · rw [hp1]
        exact List.mem_cons_of_mem _
          (refAnnotate_head_mem tl rs (some r.messenger) r.datetime pc.2 t ht)
      · exact List.mem_cons_of_mem _ (ih (some r.messenger) r.datetime pc htail)
    · have hsub : senderChangeSubset pm (r :: rs) =
          senderChangeSubset (some r.messenger) rs := by
        simp only [senderChangeSubset]; rw [if_neg hk]
      have href : refAnnotate tl pm pd (r :: rs) =
          { r with response_time := none } ::
            refAnnotate tl (some r.messenger) pd rs := by
        simp only [refAnnotate]; rw [if_neg hk]
      rw [hsub] at h
      rw [href]
      exact List.mem_cons_of_mem _ (ih (some r.messenger) pd pc h)

theorem refAnnotate_nonswitch_mem (tl : Int) :
    ∀ (rows : List Row) (pm : Option (Option String)) (pd : Option Nat)
      (pc : Row × Row), pc ∈ zipAdj rows →
      neObj pc.2.messenger pc.1.messenger = false →
      { pc.2 with response_time := none } ∈ refAnnotate tl pm pd rows := by
  intro rows
  induction rows with
  | nil => intro pm pd pc h _; simp [zipAdj] at h
  | cons r rs ih =>
    intro pm pd pc h hne
    rcases mem_zipAdj_cons h with ⟨t, ht, hp1⟩ | htail
    · subst ht
      have hhd : ∀ (pd' : Option Nat),
          { pc.2 with response_time := none } ∈
            refAnnotate tl (some r.messenger) pd' (pc.2 :: t) := by
        intro pd'
        have hkc : keepFlag (some r.messenger) pc.2.messenger = false := by
          simp only [keepFlag]
          rw [← hp1]
          exact hne
        simp only [refAnnotate]
        rw [if_neg (by rw [hkc]; exact Bool.false_ne_true)]
        exact List.mem_cons_self _ _
      by_cases hk : keepFlag pm r.messenger = true
      · simp only [refAnnotate]
        rw [if_pos hk]
        exact List.mem_cons_of_mem _ (hhd r.datetime)
      · simp only [refAnnotate]
        rw [if_neg hk]
        exact List.mem_cons_of_mem _ (hhd pd)
    · by_cases hk : keepFlag pm r.messenger = true
      · simp only [refAnnotate]
        rw [if_pos hk]
        exact List.mem_cons_of_mem _ (ih (some r.messenger) r.datetime pc htail hne)
      · simp only [refAnnotate]
        rw [if_neg hk]
        exact List.mem_cons_of_mem _ (ih (some r.messenger) pd pc htail hne)

theorem refAnnotate_rt_some_origin (tl : Int) :
    ∀ (rows : List Row) (pd : Option Nat) (prevRow : Row) (o : Row),
      o ∈ refAnnotate tl (some prevRow.messenger) pd rows →
      o.response_time ≠ none →
      ∃ pc ∈ zipAdj (prevRow :: rows),
        neObj pc.2.messenger pc.1.messenger = true ∧ keyOf o = keyOf pc.2 := by
  intro rows
  induction rows with
  | nil => intro pd prevRow o h _; simp [refAnnotate] at h
  | cons r rs ih =>
    intro pd prevRow o h hrt
    by_cases hk : keepFlag (some prevRow.messenger) r.messenger = true
    · rw [show refAnnotate tl (some prevRow.messenger) pd (r :: rs) =
          { r with response_time := rtRule tl pd r.datetime } ::
            refAnnotate tl (some r.messenger) r.datetime rs from by
          simp only [refAnnotate]; rw [if_pos hk]] at h
      have hne : neObj r.messenger prevRow.messenger = true := by
        simp only [keepFlag] at hk
        exact hk
      rcases List.mem_cons.mp h with h1 | h2
      · refine ⟨(prevRow, r), mem_zipAdj_head _ _ _, hne, ?_⟩
        rw [h1, keyOf_setRt]
      · obtain ⟨pc, hpc, hn, hko⟩ := ih r.datetime r o h2 hrt
        exact ⟨pc, mem_zipAdj_tail hpc, hn, hko⟩
    · rw [show refAnnotate tl (some prevRow.messenger) pd (r :: rs) =
          { r with response_time := none } ::
            refAnnotate tl (some r.messenger) pd rs from by
          simp only [refAnnotate]; rw [if_neg hk]] at h
      rcases List.mem_cons.mp h with h1 | h2
      · exact absurd (by rw [h1]) hrt
      · obtain ⟨pc, hpc, hn, hko⟩ := ih pd r o h2 hrt
        exact ⟨pc, mem_zipAdj_tail hpc, hn, hko⟩

theorem refAnnotate_rt_some_switch (tl : Int) (rows : List Row) (o : Row)
    (h : o ∈ refAnnotate tl none none rows) (hrt : o.response_time ≠ none) :
    ∃ pc ∈ zipAdj rows, neObj pc.2.messenger pc.1.messenger = true ∧ keyOf o = keyOf pc.2 := by
  cases rows with
  | nil => simp [refAnnotate] at h
  | cons r0 rest =>
    rw [show refAnnotate tl none none (r0 :: rest) =
        { r0 with response_time := rtRule tl none r0.datetime } ::
          refAnnotate tl (some r0.messenger) r0.datetime rest from by
        simp only [refAnnotate]
        rw [if_pos (show keepFlag none r0.messenger = true from rfl)]] at h
    rcases List.mem_cons.mp h with h1 | h2
    · refine absurd ?_ hrt
      rw [h1]
      rfl
    · exact refAnnotate_rt_some_origin tl rest r0.datetime r0 o h2 hrt

theorem map_keyOf_of_stripRt {l m : List Row} (h : l.map stripRt = m.map stripRt) :
    l.map keyOf = m.map keyOf := by
  have hl : ∀ x : List Row, x.map keyOf = (x.map stripRt).map keyOf := by
    intro x
    rw [List.map_map]
    exact List.map_congr_left (fun r _ => (keyOf_stripRt r).symm)
  rw [hl l, hl m, h]

theorem map_stripRt_id {rows : List Row} (h0 : ∀ r ∈ rows, r.response_time = none) :
    rows.map stripRt = rows :=
  (List.map_congr_left fun r hr => stripRt_of_none (h0 r hr)).trans (List.map_id rows)

theorem recRows_rt_none (recs : List Rec) : ∀ r ∈ recs.map recRow, r.response_time = none := by
  intro r hr
  rcases List.mem_map.mp hr with ⟨x, _, rfl⟩
  rfl

theorem mem_zipAdj_map_rev {α β : Type _} (f : α → β) :
    ∀ {l : List α} {pc' : β × β}, pc' ∈ zipAdj (l.map f) →
      ∃ pc ∈ zipAdj l, pc' = (f pc.1, f pc.2)
  | [], _, h => by simp [zipAdj] at h
  | [_], _, h => by simp [zipAdj] at h
  | a :: b :: rest, pc', h => by
    simp only [List.map_cons] at h
    rw [zipAdj] at h
    rcases List.mem_cons.mp h with h1 | h2
    · exact ⟨(a, b), mem_zipAdj_head _ _ _, h1⟩
    · have h2' : pc' ∈ zipAdj ((b :: rest).map f) := by simpa using h2
      obtain ⟨pc, hpc, he⟩ := mem_zipAdj_map_rev f h2'
      exact ⟨pc, mem_zipAdj_tail hpc, he⟩

/-- Packaged consequences of the refinement: the merged output and the
sequential annotation contain the same rows, and the annotation's merge keys
are duplicate-free. -/
theorem responseStage_char (tl : Int) (rows : List Row)
    (hnd : ((rows.map keyOf).Nodup)) (h0 : ∀ r ∈ rows, r.response_time = none) :
    (∀ o ∈ responseStage tl rows, o ∈ refAnnotate tl none none rows) ∧
    (∀ e ∈ refAnnotate tl none none rows, e ∈ responseStage tl rows) ∧
    (((refAnnotate tl none none rows).map keyOf).Nodup) := by
  have hmain := responseStage_eq_refAnnotate tl rows hnd h0
  have hkeys : (refAnnotate tl none none rows).map keyOf = rows.map keyOf :=
    map_keyOf_of_stripRt (by rw [map_stripRt_refAnnotate])
  refine ⟨?_, ?_, ?_⟩
  · intro o ho
    rw [hmain] at ho
    exact (mem_sortRows o _).mp ho
  · intro e he
    rw [hmain]
    exact (mem_sortRows e _).mpr he
  · rw [hkeys]
    exact hnd

/-- Every merged output row either is a left row with an absent
`response_time`, or comes from the filtered sender-change subset. -/
theorem mem_responseStage {tl : Int} {rows : List Row} {o : Row}
    (ho : o ∈ responseStage tl rows) :
    (∃ l ∈ rows, o = { l with response_time := none }) ∨
    o ∈ staleFilter tl (addDiff none (senderChangeSubset none rows)) := by
  unfold responseStage mergeOuter at ho
  rw [mem_sortRows] at ho
  rcases List.mem_append.mp ho with h1 | h2
  · rw [mem_expandJoin] at h1
    obtain ⟨l, hl, hm⟩ := h1
    cases hf : (staleFilter tl (addDiff none (senderChangeSubset none rows))).filter
        (fun q => keyEq l q) with
    | nil =>
      rw [hf] at hm
      simp only [List.mem_singleton] at hm
      exact Or.inl ⟨l, hl, hm⟩
    | cons q qs =>
      rw [hf] at hm
      right
      have : o ∈ (staleFilter tl (addDiff none (senderChangeSubset none rows))).filter
          (fun q => keyEq l q) := by rw [hf]; exact hm
      exact List.mem_of_mem_filter this
  · exact Or.inr (List.mem_of_mem_filter h2)

/-- Every merged output row's message is the message of some input row. -/
theorem responseStage_message {tl : Int} {rows : List Row} {o : Row}
    (ho : o ∈ responseStage tl rows) : ∃ r ∈ rows, o.message = r.message := by
  rcases mem_responseStage ho with ⟨l, hl, he⟩ | hr
  · exact ⟨l, hl, by rw [he]⟩
  · have h1 := (mem_staleFilter hr).1
    obtain ⟨x, hx, he⟩ := mem_addDiff h1
    refine ⟨x, (senderChangeSubset_sublist none rows).subset hx, ?_⟩
    have : (stripRt o).message = (stripRt x).message := by rw [he]
    exact this

/-- A present response-time value in the diff column is the difference of the
datetimes of two adjacent subset rows (or of the seed and the first row). -/
theorem addDiff_rt_some :
    ∀ (l : List Row) (pd : Option Nat) (o : Row) (v : Int),
      o ∈ addDiff pd l → o.response_time = some v →
      (∃ a b, pd = some a ∧ (∃ hd t, l = hd :: t ∧ hd.datetime = some b ∧ v = (b : Int) - a)) ∨
      (∃ pc ∈ zipAdj l, ∃ a b, pc.1.datetime = some a ∧ pc.2.datetime = some b ∧
        v = (b : Int) - a) := by
  intro l
  induction l with
  | nil => intro pd o v h _; simp [addDiff] at h
  | cons x xs ih =>
    intro pd o v h hv
    simp only [addDiff] at h
    rcases List.mem_cons.mp h with h1 | h2
    · rw [h1] at hv
      cases pd with
      | none => simp at hv
      | some a =>
        cases hdt : x.datetime with
        | none => rw [hdt] at hv; simp at hv
        | some b =>
          rw [hdt] at hv
          simp only [Option.some.injEq] at hv
          exact Or.inl ⟨a, b, rfl, x, xs, rfl, hdt, hv.symm⟩
    · rcases ih x.datetime o v h2 hv with ⟨a, b, hpd', hd, t, hxs, hdt', hv'⟩ | ⟨pc, hpc, hrest⟩
      · subst hxs
        exact Or.inr ⟨(x, hd), mem_zipAdj_head _ _ _, a, b, hpd', hdt', hv'⟩
      · exact Or.inr ⟨pc, mem_zipAdj_tail hpc, hrest⟩

/-! ### Claims C1, C2, C8, C9 (the response-time stage on record sequences) -/

set_option synthInstance.maxSize 2000 in
/-- Claim C1, counterexample: for the non-decreasing record sequence `ceC1`
the second record is a sender-switch point whose gap to the previous switch
point is 7 hours > 6 hours; the claim says its `response_time` must be
absent in the output, but because the fourth record has the same
(timestamp, sender, body), the outer merge attaches the fourth record's
kept response time (0 seconds) to it: every output row with that merge key
carries `response_time = 0`.  So the claim, as stated, is false at `ceC1`. -/
theorem claim_C1_counterexample :
    List.Chain' (fun a b => a.ts ≤ b.ts) ceC1 ∧
      ¬ claimC1 ((response_timelimit : Int) * 3600) ceC1 :=
  ⟨by simp [ceC1, List.chain'_cons], by decide⟩

/-- Claim C1 (amended): in addition to the claim's hypothesis of
non-decreasing timestamps, assume no two records share their
(timestamp, sender, body) merge key.  Then for every pair of adjacent
sender-switch points `(p, c)`, a merged output row with `c`'s key exists,
and every such row's `response_time` equals the gap `c.ts - p.ts` if and
only if the gap is at most the staleness threshold, and is absent
otherwise (`rtRule`). -/
theorem claim_C1_amended (tl : Int) (recs : List Rec)
    (hmono : List.Chain' (fun a b => a.ts ≤ b.ts) recs)
    (hnd : (((recs.map recRow).map keyOf).Nodup)) :
    claimC1 tl recs := by
  intro pc hpc
  obtain ⟨hfwd, hbwd, hndA⟩ :=
    responseStage_char tl (recs.map recRow) hnd (recRows_rt_none recs)
  have hK := refAnnotate_switch_pair_mem tl (recs.map recRow) none none pc hpc
  constructor
  · exact ⟨{ pc.2 with response_time := rtRule tl pc.1.datetime pc.2.datetime },
      hbwd _ hK, keyOf_setRt _ _⟩
  · intro o ho hko
    have hoA : o ∈ refAnnotate tl none none (recs.map recRow) := hfwd o ho
    have heq : o = { pc.2 with response_time := rtRule tl pc.1.datetime pc.2.datetime } :=
      keyInj hndA hoA hK (by rw [hko]; rfl)
    rw [heq]

/-- Claim C1, witness for the amended theorem at the spec's Scenario A. -/
theorem claim_C1_witness : claimC1 ((response_timelimit : Int) * 3600) scenA :=
  claim_C1_amended ((response_timelimit : Int) * 3600) scenA
    (by simp [scenA, List.chain'_cons]) (by decide)

set_option synthInstance.maxSize 2000 in
/-- Claim C2, counterexample: in `ceC2` the third record has the same sender
as its predecessor, so the claim says its `response_time` is absent; but it
shares its (timestamp, sender, body) with the second record (a sender-switch
point with a kept 60-second response time), and the outer merge attaches
that response time to every row with this key.  The claim, as stated
("even when another record with identical timestamp, sender, and body is a
sender-switch point"), is false at `ceC2`. -/
theorem claim_C2_counterexample :
    ¬ claimC2 ((response_timelimit : Int) * 3600) ceC2 := by
  decide

/-- Claim C2 (amended): if no two records share their
(timestamp, sender, body) merge key, then every record whose sender equals
the previous record's sender yields only output rows (identified by its
key) with an absent `response_time`. -/
theorem claim_C2_amended (tl : Int) (recs : List Rec)
    (hnd : (((recs.map recRow).map keyOf).Nodup)) :
    claimC2 tl recs := by
  intro pc hpc heq o ho hko
  obtain ⟨hfwd, _, hndA⟩ :=
    responseStage_char tl (recs.map recRow) hnd (recRows_rt_none recs)
  have hm := mem_zipAdj_map recRow hpc
  have hne : neObj (recRow pc.2).messenger (recRow pc.1).messenger = false := by
    simp only [recRow, neObj]
    rw [heq]
    exact bne_self_eq_false pc.2.sender
  have hNK := refAnnotate_nonswitch_mem tl (recs.map recRow) none none
    (recRow pc.1, recRow pc.2) hm hne
  have heqo : o = { recRow pc.2 with response_time := none } :=
    keyInj hndA (hfwd o ho) hNK (by rw [hko]; rfl)
  rw [heqo]

/-- Claim C2, witness for the amended theorem at the spec's Scenario A. -/
theorem claim_C2_witness : claimC2 ((response_timelimit : Int) * 3600) scenA :=
  claim_C2_amended ((response_timelimit : Int) * 3600) scenA (by decide)

set_option synthInstance.maxSize 2000 in
/-- Claim C8, counterexample: for `ceC8` (two same-timestamp records with
senders "b" then "a") the outer merge sorts the rows lexicographically by
the join keys, so the output lists the "a" record first — the input line
order is NOT preserved, refuting the claim as stated. -/
theorem claim_C8_counterexample :
    ¬ claimC8 ((response_timelimit : Int) * 3600) ceC8 := by
  decide

/-- Claim C8 (amended): the merge neither drops nor (when no two records
share a (timestamp, sender, body) merge key) duplicates records, and every
record keeps its other fields, but the output is ordered by the merge keys
(`sortRows`) — pandas sorts an outer merge lexicographically by the join
keys — not by input line order; and only sender-switch records can carry a
`response_time`. -/
theorem claim_C8_amended (tl : Int) (recs : List Rec)
    (hnd : (((recs.map recRow).map keyOf).Nodup)) :
    ((recordStage tl recs).map stripRt = sortRows (recs.map recRow)) ∧
    (∀ o ∈ recordStage tl recs, o.response_time ≠ none →
      ∃ pc ∈ zipAdj recs, pc.1.sender ≠ pc.2.sender ∧ keyOf o = keyOf (recRow pc.2)) := by
  have h0 := recRows_rt_none recs
  have hmain := responseStage_eq_refAnnotate tl (recs.map recRow) hnd h0
  constructor
  · show (responseStage tl (recs.map recRow)).map stripRt = _
    rw [hmain, map_stripRt_sortRows, map_stripRt_refAnnotate, map_stripRt_id h0]
  · intro o ho hrt
    obtain ⟨hfwd, _, _⟩ := responseStage_char tl (recs.map recRow) hnd h0
    obtain ⟨pc', hpc', hne, hko⟩ :=
      refAnnotate_rt_some_switch tl (recs.map recRow) o (hfwd o ho) hrt
    obtain ⟨pc, hpc, hpe⟩ := mem_zipAdj_map_rev recRow hpc'
    refine ⟨pc, hpc, ?_, ?_⟩
    · intro hss
      rw [hpe] at hne
      simp only [recRow, neObj] at hne
      rw [hss] at hne
      rw [bne_self_eq_false] at hne
      exact Bool.false_ne_true hne
    · rw [hko, hpe]

/-- Claim C8, witness for the amended theorem at the spec's Scenario A. -/
theorem claim_C8_witness :
    ((recordStage ((response_timelimit : Int) * 3600) scenA).map stripRt =
      sortRows (scenA.map recRow)) ∧
    (∀ o ∈ recordStage ((response_timelimit : Int) * 3600) scenA, o.response_time ≠ none →
      ∃ pc ∈ zipAdj scenA, pc.1.sender ≠ pc.2.sender ∧ keyOf o = keyOf (recRow pc.2)) :=
  claim_C8_amended ((response_timelimit : Int) * 3600) scenA (by decide)

/-- Claim C9: for every record sequence with non-decreasing timestamps and
any staleness threshold, every `response_time` present in the merged output
is at least the zero duration.  A present value is a difference of the
datetimes of two adjacent rows of the sender-change subset, which is a
subsequence of the records, so non-decreasing timestamps make it
non-negative. -/
theorem claim_C9 (tl : Int) (recs : List Rec)
    (hmono : List.Chain' (fun a b => a.ts ≤ b.ts) recs) :
    ∀ o ∈ recordStage tl recs, ∀ v : Int, o.response_time = some v → 0 ≤ v := by
  intro o ho v hv
  rcases mem_responseStage ho with ⟨l, _, he⟩ | hr
  · rw [he] at hv
    simp at hv
  · have h1 := (mem_staleFilter hr).1
    rcases addDiff_rt_some _ none o v h1 hv with ⟨a, b, hpd, _⟩ | ⟨pc, hpc, a, b, ha, hb, hvab⟩
    · exact absurd hpd (by simp)
    · have hpair : List.Pairwise
          (fun x y : Row => ∀ a b : Nat, x.datetime = some a → y.datetime = some b → a ≤ b)
          (senderChangeSubset none (recs.map recRow)) := by
        apply List.Pairwise.sublist (senderChangeSubset_sublist none (recs.map recRow))
        haveI : IsTrans Rec (fun x y : Rec => x.ts ≤ y.ts) :=
          ⟨fun a b c hab hbc => le_trans hab hbc⟩
        have hp : List.Pairwise (fun x y : Rec => x.ts ≤ y.ts) recs :=
          List.chain'_iff_pairwise.mp hmono
        refine List.Pairwise.map recRow ?_ hp
        intro x y hxy a b hxa hyb
        simp only [recRow, Option.some.injEq] at hxa hyb
        rw [← hxa, ← hyb]
        exact hxy
      have hle := pairwise_zipAdj hpair pc hpc a b ha hb
      rw [hvab]
      simp only [sub_nonneg]
      exact_mod_cast hle

/-- Claim C9, witness at the spec's Scenario A: the sender-switch record's
response time is 300 seconds, and the theorem yields its non-negativity. -/
theorem claim_C9_witness :
    ((recordStage ((response_timelimit : Int) * 3600) scenA).getD 1 row0).response_time =
      some 300 ∧ (0 : Int) ≤ 300 :=
  ⟨by decide,
    claim_C9 ((response_timelimit : Int) * 3600) scenA (by simp [scenA, List.chain'_cons])
      ((recordStage ((response_timelimit : Int) * 3600) scenA).getD 1 row0) (by decide)
      300 (by decide)⟩

/-! ### The classifier, the datetime conversion, and the forward fill -/

theorem classifyLine_messenger_none {s : String} (h : (classifyLine s).messenger = none) :
    (classifyLine s).datetime = none ∧ (classifyLine s).message = s := by
  cases hm : matchLine s.data with
  | none => constructor <;> simp [classifyLine, hm]
  | some x =>
    obtain ⟨dt, m, msg⟩ := x
    rw [show classifyLine s = ⟨some ⟨dt⟩, some ⟨m⟩, ⟨msg⟩⟩ from by simp [classifyLine, hm]] at h
    simp at h

theorem toRow_of_no_datetime {p : ParsedLine} (h : p.datetime = none) :
    toRow p = some ⟨none, p.messenger, p.message, none, none, none⟩ := by
  simp [toRow, h]

theorem toRow_fields {p : ParsedLine} {r : Row} (h : toRow p = some r) :
    r.message = p.message ∧ r.messenger = p.messenger ∧ r.response_time = none := by
  cases hd : p.datetime with
  | none =>
    rw [toRow_of_no_datetime hd] at h
    cases h
    exact ⟨rfl, rfl, rfl⟩
  | some s =>
    rw [show toRow p = match parseTs s with
        | none => none
        | some t => some ⟨some t, p.messenger, p.message, some (t / 86400), some (t % 86400), none⟩
      from by simp [toRow, hd]] at h
    cases ht : parseTs s with
    | none => rw [ht] at h; cases h
    | some t =>
      rw [ht] at h
      cases h
      exact ⟨rfl, rfl, rfl⟩

theorem toRows_mem {ps : List ParsedLine} {rows : List Row} (h : toRows ps = some rows) :
    ∀ r ∈ rows, ∃ p ∈ ps, toRow p = some r := by
  induction ps generalizing rows with
  | nil =>
    cases h
    intro r hr
    cases hr
  | cons p ps ih =>
    simp only [toRows] at h
    cases hp : toRow p with
    | none => rw [hp] at h; cases h
    | some r0 =>
      rw [hp] at h
      cases hps : toRows ps with
      | none => rw [hps] at h; cases h
      | some rs =>
        rw [hps] at h
        cases h
        intro r hr
        rcases List.mem_cons.mp hr with h1 | h2
        · exact ⟨p, List.mem_cons_self _ _, by rw [h1]; exact hp⟩
        · obtain ⟨q, hq, hqe⟩ := ih hps r h2
          exact ⟨q, List.mem_cons_of_mem _ hq, hqe⟩

theorem mem_ffillRows :
    ∀ {rows : List Row} {cdt : Option Nat} {cms : Option String} {cda cti : Option Nat} {r : Row},
      r ∈ ffillRows cdt cms cda cti rows →
      ∃ x ∈ rows, r.message = x.message ∧ r.response_time = x.response_time
  | [], _, _, _, _, _, h => by simp [ffillRows] at h
  | x :: xs, cdt, cms, cda, cti, r, h => by
    simp only [ffillRows] at h
    rcases List.mem_cons.mp h with h1 | h2
    · exact ⟨x, List.mem_cons_self _ _, by rw [h1], by rw [h1]⟩
    · obtain ⟨y, hy, he⟩ := mem_ffillRows h2
      exact ⟨y, List.mem_cons_of_mem _ hy, he⟩

theorem ffillRows_length :
    ∀ (rows : List Row) (cdt : Option Nat) (cms : Option String) (cda cti : Option Nat),
      (ffillRows cdt cms cda cti rows).length = rows.length
  | [], _, _, _, _ => rfl
  | x :: xs, cdt, cms, cda, cti => by
    simp only [ffillRows, List.length_cons]
    rw [ffillRows_length xs]

/-- Rows reconstructed from a successfully parsed input have no
`response_time` yet and non-empty messages. -/
theorem reconstruct_rows_facts {lines : List String} {recs : List Row}
    (h : reconstruct lines = some recs) :
    (∀ r ∈ recs, r.response_time = none) ∧ (∀ r ∈ recs, r.message ≠ "") := by
  unfold reconstruct at h
  cases hp : parseChat lines with
  | none => rw [hp] at h; cases h
  | some rows0 =>
    rw [hp] at h
    simp only [Option.map] at h
    have he : ffillRows none none none none rows0 = recs := by injection h
    unfold parseChat at hp
    constructor
    · intro r hr
      rw [← he] at hr
      obtain ⟨x, hx, _, hrt⟩ := mem_ffillRows hr
      obtain ⟨p, _, hpe⟩ := toRows_mem hp x hx
      rw [hrt]
      exact (toRow_fields hpe).2.2
    · intro r hr
      rw [← he] at hr
      obtain ⟨x, hx, hmsg, _⟩ := mem_ffillRows hr
      obtain ⟨p, hpmem, hpe⟩ := toRows_mem hp x hx
      rw [hmsg, (toRow_fields hpe).1]
      have := List.of_mem_filter hpmem
      simpa using this

theorem fillField_none_left (x : Option α) : fillField none x = x := by
  cases x <;> rfl

theorem fillField_none_right (c : Option α) : fillField c none = c := rfl

theorem fillField_lastSome (c x : Option α) (l : List (Option α)) :
    fillField (fillField c x) (lastSome l) = fillField c (lastSome (x :: l)) := by
  cases h : lastSome l <;> simp [lastSome, fillField, h]

/-- The forward fill splits over concatenation: the carried state after a
segment is its last present value per column (or the incoming state). -/
theorem ffill_append :
    ∀ (l1 l2 : List Row) (cdt : Option Nat) (cms : Option String) (cda cti : Option Nat),
      ffillRows cdt cms cda cti (l1 ++ l2) =
        ffillRows cdt cms cda cti l1 ++
        ffillRows (fillField cdt (lastSome (l1.map (fun r => r.datetime))))
          (fillField cms (lastSome (l1.map (fun r => r.messenger))))
          (fillField cda (lastSome (l1.map (fun r => r.date))))
          (fillField cti (lastSome (l1.map (fun r => r.time)))) l2
  | [], l2, cdt, cms, cda, cti => by simp [ffillRows, lastSome, fillField_none_right]
  | x :: xs, l2, cdt, cms, cda, cti => by
    simp only [List.cons_append, ffillRows, List.map_cons]
    rw [show xs.append l2 = xs ++ l2 from rfl]
    rw [ffill_append xs l2]
    rw [fillField_lastSome, fillField_lastSome, fillField_lastSome, fillField_lastSome]

/-- Once the carried messenger is present, every forward-filled row has a
present messenger. -/
theorem ffill_messenger_isSome_of_carry :
    ∀ (rows : List Row) (cdt : Option Nat) (m : String) (cda cti : Option Nat),
      ∀ x ∈ ffillRows cdt (some m) cda cti rows, x.messenger.isSome = true
  | [], _, _, _, _, x, hx => by simp [ffillRows] at hx
  | r :: rs, cdt, m, cda, cti, x, hx => by
    simp only [ffillRows] at hx
    rcases List.mem_cons.mp hx with h1 | h2
    · rw [h1]
      cases hm : r.messenger <;> simp [fillField, hm]
    · cases hm : r.messenger with
      | none =>
        rw [hm] at h2
        exact ffill_messenger_isSome_of_carry rs _ m _ _ x h2
      | some v =>
        rw [hm] at h2
        exact ffill_messenger_isSome_of_carry rs _ v _ _ x h2

/-- If the first row's messenger is present, all reconstructed rows have a
present messenger. -/
theorem ffill_messenger_isSome {rows : List Row}
    (h1 : ∀ r0, rows.head? = some r0 → r0.messenger.isSome = true) :
    ∀ x ∈ ffillRows none none none none rows, x.messenger.isSome = true := by
  cases rows with
  | nil => intro x hx; simp [ffillRows] at hx
  | cons r0 rest =>
    have hr0 : r0.messenger.isSome = true := h1 r0 rfl
    cases hm : r0.messenger with
    | none => rw [hm] at hr0; cases hr0
    | some s =>
      intro x hx
      simp only [ffillRows] at hx
      rcases List.mem_cons.mp hx with h1' | h2
      · rw [h1']
        simp [fillField, hm]
      · rw [hm] at h2
        exact ffill_messenger_isSome_of_carry rest _ s _ _ x h2

/-- A continuation row (no messenger of its own) is forward-filled with
exactly the messenger of the reconstructed row right before it. -/
theorem ffill_cont_messenger :
    ∀ (rows : List Row) (cdt : Option Nat) (cms : Option String) (cda cti : Option Nat)
      (pr : (Row × Row) × (Row × Row)),
      pr ∈ zipAdj (rows.zip (ffillRows cdt cms cda cti rows)) →
      pr.2.1.messenger = none → pr.2.2.messenger = pr.1.2.messenger
  | [], _, _, _, _, pr, h, _ => by simp [ffillRows, zipAdj] at h
  | [r], cdt, cms, cda, cti, pr, h, _ => by simp [ffillRows, zipAdj] at h
  | r :: s :: ss, cdt, cms, cda, cti, pr, h, hnone => by
    simp only [ffillRows, List.zip_cons_cons] at h
    rw [zipAdj] at h
    rcases List.mem_cons.mp h with h1 | h2
    · rw [h1] at hnone ⊢
      simp only at hnone ⊢
      rw [hnone]
      rfl
    · exact ffill_cont_messenger (s :: ss) (fillField cdt r.datetime)
        (fillField cms r.messenger) (fillField cda r.date) (fillField cti r.time) pr
        (by simp only [ffillRows, List.zip_cons_cons]; exact h2) hnone

theorem mem_of_zipAdj {α : Type _} :
    ∀ {l : List α} {pc : α × α}, pc ∈ zipAdj l → pc.1 ∈ l ∧ pc.2 ∈ l
  | [], _, h => by simp [zipAdj] at h
  | [_], _, h => by simp [zipAdj] at h
  | a :: b :: t, pc, h => by
    rw [zipAdj] at h
    rcases List.mem_cons.mp h with h1 | h2
    · rw [h1]
      exact ⟨List.mem_cons_self _ _, List.mem_cons_of_mem _ (List.mem_cons_self _ _)⟩
    · have := mem_of_zipAdj h2
      exact ⟨List.mem_cons_of_mem _ this.1, List.mem_cons_of_mem _ this.2⟩

theorem mem_zipAdj_zip_snd {α β : Type _} :
    ∀ {l : List α} {m : List β} {pr : (α × β) × (α × β)},
      pr ∈ zipAdj (List.zip l m) → (pr.1.2, pr.2.2) ∈ zipAdj m
  | [], _, _, h => by simp [zipAdj] at h
  | _ :: _, [], _, h => by simp [zipAdj] at h
  | [_], _ :: _, _, h => by simp [zipAdj] at h
  | _ :: _ :: _, [_], _, h => by simp [zipAdj] at h
  | a :: a2 :: l', b :: b2 :: m', pr, h => by
    simp only [List.zip_cons_cons] at h
    rw [zipAdj] at h
    rcases List.mem_cons.mp h with h1 | h2
    · rw [h1]
      exact mem_zipAdj_head _ _ _
    · have := mem_zipAdj_zip_snd (l := a2 :: l') (m := b2 :: m')
        (by simpa [List.zip_cons_cons] using h2)
      exact mem_zipAdj_tail this

/-! ### Claims C3, C4, C5, C6, C10 (the classifier and reconstruction) -/

/-- Claim C3, counterexample: the input `ceC3` starts with a line that has no
timestamp/sender prefix, and the claim says reconstruction must fail with a
fatal `InputFormatError`.  The code does not fail (there is no such check:
`fillna(method="ffill")` simply leaves leading missing values missing), and
the run succeeds with a record whose sender is absent — exactly what the
claim says must not happen.  (A fatal error is modelled as the pipeline
returning `none`; here it returns `some`.) -/
theorem claim_C3_counterexample :
    (classifyLine "hello").messenger = none ∧
    (pipeline ceC3).isSome = true ∧
    (∃ o ∈ (pipeline ceC3).getD [], o.messenger = none ∧ o.datetime = none) := by
  decide

/-- Claim C3 (amended): when the first line lacks the prefix (and has a
non-empty body), reconstruction does NOT fail on that account: it emits the
first record with sender and timestamp absent and carries on. -/
theorem claim_C3_amended (l : String) (ls : List String) (rows0 : List Row)
    (hm : (classifyLine l).messenger = none)
    (hne : (classifyLine l).message ≠ "")
    (hp : parseChat (l :: ls) = some rows0) :
    ∃ r rest, reconstruct (l :: ls) = some (r :: rest) ∧ r.messenger = none ∧
      r.datetime = none ∧ r.message = (classifyLine l).message := by
  obtain ⟨hd, -⟩ := classifyLine_messenger_none hm
  have hrow : toRow (classifyLine l) =
      some ⟨none, none, (classifyLine l).message, none, none, none⟩ := by
    rw [toRow_of_no_datetime hd, hm]
  have hfil : (List.map classifyLine (l :: ls)).filter (fun p => p.message != "") =
      classifyLine l :: (List.map classifyLine ls).filter (fun p => p.message != "") := by
    rw [List.map_cons, List.filter_cons, if_pos (by rwa [bne_iff_ne])]
  unfold parseChat at hp
  rw [hfil] at hp
  cases hrest : toRows ((List.map classifyLine ls).filter fun p => p.message != "") with
  | none =>
    rw [show toRows (classifyLine l ::
        (List.map classifyLine ls).filter (fun p => p.message != "")) = none from by
      simp [toRows, hrow, hrest]] at hp
    cases hp
  | some rs =>
    have hPC : parseChat (l :: ls) =
        some ((⟨none, none, (classifyLine l).message, none, none, none⟩ : Row) :: rs) := by
      unfold parseChat
      rw [hfil]
      simp [toRows, hrow, hrest]
    refine ⟨⟨none, none, (classifyLine l).message, none, none, none⟩,
      ffillRows none none none none rs, ?_, rfl, rfl, rfl⟩
    unfold reconstruct
    rw [hPC]
    rfl

/-- Claim C3, witness: a one-line input without the prefix parses to a
single record with absent sender and timestamp, and no error is raised. -/
theorem claim_C3_witness :
    ∃ r rest, reconstruct ("hello" :: []) = some (r :: rest) ∧ r.messenger = none ∧
      r.datetime = none ∧ r.message = (classifyLine "hello").message :=
  claim_C3_amended "hello" [] ((parseChat ["hello"]).getD []) rfl (by decide) rfl

/-- Claim C4, counterexample: the regex's `.` wildcards inside the bracketed
datetime accept any character, so for `ceC4line` the prefix matches (the
captured datetime is `"01x01x23, 10:00:00"` and the messenger `"Bob"`), yet
`pd.to_datetime(..., format="%d.%m.%y, %H:%M:%S")` raises on that string —
modelled by `parseChat` returning `none`.  The claim's assertion that
"timestamp parsing of any line whose prefix matched never raises" is false
at this line. -/
theorem claim_C4_counterexample :
    (classifyLine ceC4line).datetime = some "01x01x23, 10:00:00" ∧
    (classifyLine ceC4line).messenger = some "Bob" ∧
    parseChat [ceC4line] = none := by
  decide

/-- Claim C4 (amended): the line classifier itself is total and never fails:
every line yields a ParsedLine, either via the fallback branch (no prefix:
both captures absent and the body is the whole line) or with both captures
present.  However, the later timestamp parsing of a prefix-matched line CAN
raise (see the counterexample), because the grammar's wildcard dots and
unchecked ranges admit datetime strings that `%d.%m.%y, %H:%M:%S` rejects. -/
theorem claim_C4_amended (s : String) :
    ((classifyLine s).datetime = none ∧ (classifyLine s).messenger = none ∧
      (classifyLine s).message = s) ∨
    ((classifyLine s).datetime.isSome = true ∧ (classifyLine s).messenger.isSome = true) := by
  cases hm : matchLine s.data with
  | none =>
    left
    refine ⟨?_, ?_, ?_⟩ <;> simp [classifyLine, hm]
  | some x =>
    obtain ⟨dt, m, msg⟩ := x
    right
    constructor <;> simp [classifyLine, hm]

/-- Claim C5, counterexample: in `ceC5` the continuation line `"there"` is
immediately preceded by the PREFIXED line `"[01.01.23, 10:05:00] Bob: "`
(messenger `"Bob"`), which is its nearest preceding prefixed line; the claim
says the continuation record carries that line's sender.  But the Bob line
has an empty extracted body, is dropped before the forward fill, and its
prefix is not carried: the continuation record carries `"Alice"` instead
(and only 2 records are produced).  The claim, as stated, is false here. -/
theorem claim_C5_counterexample :
    (classifyLine "[01.01.23, 10:05:00] Bob: ").messenger = some "Bob" ∧
    (classifyLine "[01.01.23, 10:05:00] Bob: ").message = "" ∧
    (classifyLine "there").messenger = none ∧
    ((reconstruct ceC5).getD []).length = 2 ∧
    ((((reconstruct ceC5).getD []).getD 1 row0).messenger = some "Alice" ∧
      (some "Alice" : Option String) ≠ some "Bob") := by
  decide

/-- Claim C5 (amended): a continuation row is emitted as its own distinct
record, with its body unchanged, carrying per column the last present value
among the PRECEDING KEPT rows (`lastSome`) — i.e. the nearest preceding
prefixed line whose body was non-empty, not the nearest preceding prefixed
line outright. -/
theorem claim_C5_amended (l1 l2 : List Row) (r : Row)
    (hm : r.messenger = none) (hd : r.datetime = none)
    (hda : r.date = none) (hti : r.time = none) :
    ffillRows none none none none (l1 ++ r :: l2) =
      ffillRows none none none none l1 ++
      ({ r with
          datetime := lastSome (l1.map (fun x => x.datetime)),
          messenger := lastSome (l1.map (fun x => x.messenger)),
          date := lastSome (l1.map (fun x => x.date)),
          time := lastSome (l1.map (fun x => x.time)) } ::
        ffillRows (lastSome (l1.map (fun x => x.datetime)))
          (lastSome (l1.map (fun x => x.messenger)))
          (lastSome (l1.map (fun x => x.date)))
          (lastSome (l1.map (fun x => x.time))) l2) := by
  rw [ffill_append l1 (r :: l2)]
  simp only [fillField_none_left]
  congr 1
  simp only [ffillRows, hm, hd, hda, hti, fillField_none_right]

/-- Claim C5, witness: the amended theorem applied to the spec's Scenario B
(one prefixed line, one continuation line). -/
theorem claim_C5_witness :
    ffillRows none none none none ([rowB1] ++ rowB2 :: []) =
      ffillRows none none none none [rowB1] ++
      ({ rowB2 with
          datetime := lastSome ([rowB1].map (fun x => x.datetime)),
          messenger := lastSome ([rowB1].map (fun x => x.messenger)),
          date := lastSome ([rowB1].map (fun x => x.date)),
          time := lastSome ([rowB1].map (fun x => x.time)) } ::
        ffillRows (lastSome ([rowB1].map (fun x => x.datetime)))
          (lastSome ([rowB1].map (fun x => x.messenger)))
          (lastSome ([rowB1].map (fun x => x.date)))
          (lastSome ([rowB1].map (fun x => x.time))) []) :=
  claim_C5_amended [rowB1] [] rowB2 rfl rfl rfl rfl

/-- Claim C6: (1) every record of a successful run has a non-empty body, and
(2) a raw line whose extracted body is empty is excluded entirely: deleting
it from the input leaves the pipeline's output unchanged (in particular its
prefix, if any, is not carried onto later continuation lines). -/
theorem claim_C6 :
    (∀ (lines : List String) (out : List Row), pipeline lines = some out →
      ∀ o ∈ out, o.message ≠ "") ∧
    (∀ (xs ys : List String) (l : String), (classifyLine l).message = "" →
      pipeline (xs ++ l :: ys) = pipeline (xs ++ ys)) := by
  constructor
  · intro lines out hp o ho
    unfold pipeline at hp
    cases hrec : reconstruct lines with
    | none => rw [hrec] at hp; cases hp
    | some recs =>
      rw [hrec] at hp
      simp only [Option.map] at hp
      have he : responseStage ((response_timelimit : Int) * 3600) recs = out := by
        injection hp
      rw [← he] at ho
      obtain ⟨r, hr, hmsg⟩ := responseStage_message ho
      rw [hmsg]
      exact (reconstruct_rows_facts hrec).2 r hr
  · intro xs ys l hl
    unfold pipeline reconstruct parseChat
    rw [List.map_append, List.map_append, List.filter_append, List.filter_append,
      List.map_cons, List.filter_cons, if_neg (by rw [hl]; decide)]

/-- Claim C6, witness: a successful run's bodies are non-empty, and deleting
an empty raw line does not change the output. -/
theorem claim_C6_witness :
    (∀ o ∈ (pipeline ["hi"]).getD [], o.message ≠ "") ∧
    pipeline (["[01.01.23, 10:00:00] Alice: Hi"] ++ "" :: []) =
      pipeline (["[01.01.23, 10:00:00] Alice: Hi"] ++ []) :=
  ⟨fun o ho => claim_C6.1 ["hi"] ((pipeline ["hi"]).getD []) rfl o ho,
    claim_C6.2 ["[01.01.23, 10:00:00] Alice: Hi"] [] "" rfl⟩

set_option synthInstance.maxSize 2000 in
/-- Claim C10, counterexample: in `ceC10` the first line has the prefix and
the third line is a continuation; its reconstructed record has the same
sender as the preceding record (so it is not a sender-switch point), yet —
because it coincides with the second record on (timestamp, sender, body) —
every merged output row carrying its key has a PRESENT `response_time`.
"A continuation record never carries a response_time" is false here. -/
theorem claim_C10_counterexample :
    (classifyLine "[01.01.23, 10:00:00] Alice: hi").messenger.isSome = true ∧
    (classifyLine "x").messenger = none ∧
    ((reconstruct ceC10).getD []).length = 3 ∧
    (((reconstruct ceC10).getD []).getD 2 row0).messenger =
      (((reconstruct ceC10).getD []).getD 1 row0).messenger ∧
    (∃ o ∈ (pipeline ceC10).getD [],
      keyOf o = keyOf (((reconstruct ceC10).getD []).getD 2 row0)) ∧
    (∀ o ∈ (pipeline ceC10).getD [],
      keyOf o = keyOf (((reconstruct ceC10).getD []).getD 2 row0) →
        o.response_time ≠ none) := by
  decide

/-- Claim C10 (amended): if the first kept parsed row is prefixed and no two
reconstructed records share a (timestamp, sender, body) merge key, then
every record produced from a continuation line has the sender of the
immediately preceding record, and every output row carrying its key has an
absent `response_time`. -/
theorem claim_C10_amended (lines : List String) (rows0 out : List Row)
    (hp : parseChat lines = some rows0)
    (h1 : rows0.head?.all (fun r0 => r0.messenger.isSome) = true)
    (hnd : (((ffillRows none none none none rows0).map keyOf).Nodup))
    (hout : pipeline lines = some out) :
    ∀ pr ∈ zipAdj (rows0.zip (ffillRows none none none none rows0)),
      pr.2.1.messenger = none →
      pr.2.2.messenger = pr.1.2.messenger ∧
      ∀ o ∈ out, keyOf o = keyOf pr.2.2 → o.response_time = none := by
  intro pr hpr hnone
  have hmsg := ffill_cont_messenger rows0 none none none none pr hpr hnone
  refine ⟨hmsg, ?_⟩
  have hrec : reconstruct lines = some (ffillRows none none none none rows0) := by
    unfold reconstruct
    rw [hp]
    rfl
  have hout' : out =
      responseStage ((response_timelimit : Int) * 3600) (ffillRows none none none none rows0) := by
    unfold pipeline at hout
    rw [hrec] at hout
    simp only [Option.map] at hout
    injection hout with h'
    exact h'.symm
  have h0 : ∀ r ∈ ffillRows none none none none rows0, r.response_time = none :=
    (reconstruct_rows_facts hrec).1
  obtain ⟨hfwd, -, hndA⟩ :=
    responseStage_char ((response_timelimit : Int) * 3600)
      (ffillRows none none none none rows0) hnd h0
  have hadj : (pr.1.2, pr.2.2) ∈ zipAdj (ffillRows none none none none rows0) :=
    mem_zipAdj_zip_snd hpr
  have h1' : ∀ r0, rows0.head? = some r0 → r0.messenger.isSome = true := by
    intro r0 hr0
    cases rows0 with
    | nil => cases hr0
    | cons x xs =>
      rw [show (x :: xs).head? = some x from rfl] at hr0
      injection hr0 with hr0'
      rw [← hr0']
      simpa [Option.all] using h1
  have hprev_some : pr.1.2.messenger.isSome = true :=
    ffill_messenger_isSome h1' pr.1.2 (mem_of_zipAdj hadj).1
  have hne : neObj pr.2.2.messenger pr.1.2.messenger = false := by
    rw [hmsg]
    cases hsome : pr.1.2.messenger with
    | none => rw [hsome] at hprev_some; cases hprev_some
    | some s => simp [neObj]
  have hNK := refAnnotate_nonswitch_mem ((response_timelimit : Int) * 3600)
    (ffillRows none none none none rows0) none none (pr.1.2, pr.2.2) hadj hne
  intro o ho hko
  rw [hout'] at ho
  have heqo := keyInj hndA (hfwd o ho) hNK (by rw [hko]; rfl)
  rw [heqo]

/-- Claim C10, witness: the amended theorem applied to Scenario B's
continuation pair shows the continuation record's output row (the second row
of the merged output) has no response time. -/
theorem claim_C10_witness :
    (((pipeline scenB).getD []).getD 1 row0).response_time = none :=
  (claim_C10_amended scenB ((parseChat scenB).getD []) ((pipeline scenB).getD [])
      rfl (by decide) (by decide) rfl
      ((zipAdj (((parseChat scenB).getD []).zip
          (ffillRows none none none none ((parseChat scenB).getD [])))).getD 0
        ((row0, row0), (row0, row0)))
      (by decide) (by decide)).2
    (((pipeline scenB).getD []).getD 1 row0) (by decide) (by decide)

/-! ### Claim C7 (the summary table and the sender set's iteration order) -/

theorem lookup_summaryTable (m : Option String) :
    ∀ (o : List (Option String)) (df : List Row),
      List.lookup m (summaryTable o df) =
        if m ∈ o then some (avgResponseTime df m, avgMessageLength df m, avgPerDay df m)
        else none := by
  intro o df
  induction o with
  | nil => simp [summaryTable]
  | cons x xs ih =>
    simp only [summaryTable, List.map_cons, List.lookup]
    by_cases hmx : m = x
    · subst hmx
      simp [ih]
    · have hbx : (m == x) = false := by simpa using hmx
      rw [hbx]
      simp only [summaryTable] at ih
      rw [ih]
      simp [List.mem_cons, hmx]

/-- Claim C7, counterexample: the code enumerates `set(df["messenger"])`,
whose iteration order is unspecified (Python randomizes string hashing per
interpreter run).  Both orders below are valid enumerations of the sender
set of `ceC7`'s merged frame, yet they produce summary tables with different
column arrangements — so two runs need not produce "the same column
arrangement per sender", refuting the claim as stated. -/
theorem claim_C7_counterexample :
    validOrder ((pipeline ceC7).getD []) [some "Alice", some "Bob"] ∧
    validOrder ((pipeline ceC7).getD []) [some "Bob", some "Alice"] ∧
    (summaryTable [some "Alice", some "Bob"] ((pipeline ceC7).getD [])).map Prod.fst ≠
      (summaryTable [some "Bob", some "Alice"] ((pipeline ceC7).getD [])).map Prod.fst := by
  decide

/-- Claim C7 (amended): two runs on the same input produce identical
MessageRecord sequences and, for each sender, identical summary values; only
the column arrangement can differ between runs, because it follows the
unordered sender set's enumeration order. -/
theorem claim_C7_amended (lines : List String) (df : List Row)
    (o1 o2 : List (Option String)) (hp : pipeline lines = some df)
    (h1 : validOrder df o1) (h2 : validOrder df o2) :
    runSummary lines o1 = some (df, summaryTable o1 df) ∧
    runSummary lines o2 = some (df, summaryTable o2 df) ∧
    ∀ m, List.lookup m (summaryTable o1 df) = List.lookup m (summaryTable o2 df) := by
  refine ⟨?_, ?_, ?_⟩
  · unfold runSummary
    rw [hp]
    rfl
  · unfold runSummary
    rw [hp]
    rfl
  · intro m
    rw [lookup_summaryTable, lookup_summaryTable]
    by_cases hm : m ∈ df.map (fun r => r.messenger)
    · rw [if_pos (h1.2.2 m hm), if_pos (h2.2.2 m hm)]
    · rw [if_neg (fun hin => hm (h1.2.1 m hin)), if_neg (fun hin => hm (h2.2.1 m hin))]

/-- Claim C7, witness: the amended theorem at `ceC7` with the two
enumeration orders of its sender set. -/
theorem claim_C7_witness :
    runSummary ceC7 [some "Alice", some "Bob"] =
      some ((pipeline ceC7).getD [],
        summaryTable [some "Alice", some "Bob"] ((pipeline ceC7).getD [])) ∧
    runSummary ceC7 [some "Bob", some "Alice"] =
      some ((pipeline ceC7).getD [],
        summaryTable [some "Bob", some "Alice"] ((pipeline ceC7).getD [])) ∧
    ∀ m, List.lookup m (summaryTable [some "Alice", some "Bob"] ((pipeline ceC7).getD [])) =
      List.lookup m (summaryTable [some "Bob", some "Alice"] ((pipeline ceC7).getD [])) :=
  claim_C7_amended ceC7 ((pipeline ceC7).getD [])
    [some "Alice", some "Bob"] [some "Bob", some "Alice"] rfl (by decide) (by decide)

end WhatsApp
